import Mathlib

/-!
Verification of the post-rs core against its specification.

The source is shallowly embedded: machine integers become `Nat` with explicit
bounds where overflow matters, byte slices become `List Nat`, fallible code
returns `Option`/`Except`, and the external cryptographic primitives (the
`scrypt_jane::scrypt` function and the RandomX VM) are taken as oracle
function parameters, since their implementations live outside this
repository.  Stateful code (the proof service, the OpenCL scrypter) is
embedded as explicit state-passing functions.
-/

/-! ## Byte-level utilities -/

/-- Lexicographic strict order on byte slices, mirroring Rust's `Ord` for
`&[u8]` (used by `hash.as_slice() < difficulty` and `label < &difficulty`). -/
def lexLt : List Nat → List Nat → Bool
  | _, [] => false
  | [], _ :: _ => true
  | a :: xs, b :: ys => if a < b then true else if b < a then false else lexLt xs ys

/-- `n.to_le_bytes()` truncated/zero-extended to `k` bytes (little endian). -/
def toLEBytes : Nat → Nat → List Nat
  | 0, _ => []
  | k + 1, n => n % 256 :: toLEBytes k (n / 256)

/-- `u64::from_le_bytes` on a byte list. -/
def fromLEBytes : List Nat → Nat
  | [] => 0
  | b :: bs => b + 256 * fromLEBytes bs

/-- Deterministic lowest-index-first search over `[start, start + fuel)`:
the sequential semantics of rayon's `find_first` over an ordered integer
range (and one admissible schedule of `find_any`). -/
def searchFirst (f : Nat → Bool) : Nat → Nat → Option Nat
  | 0, _ => none
  | fuel + 1, start => if f start then some start else searchFirst f fuel (start + 1)

/-! ## `src/pow.rs`: scrypt-based k2/k3 proofs of work

`scrypt_jane::scrypt` is an external primitive; it is modelled as an oracle
`scrypt8 : password → salt → 8 output bytes`.  The scrypt parameters are
fixed inputs of the oracle and therefore do not appear separately. -/

/-- Embeds `hash_k2_pow`: the u64 little-endian interpretation of the 8-byte
scrypt of `(password = challenge ‖ nonce_LE, salt = k2_pow_LE)`. -/
def hash_k2_pow (scrypt8 : List Nat → List Nat → List Nat)
    (challenge : List Nat) (nonce : Nat) (k2_pow : Nat) : Nat :=
  fromLEBytes (scrypt8 (challenge ++ toLEBytes 4 nonce) (toLEBytes 8 k2_pow))

/-- Embeds `find_k2_pow`: `(0u64..u64::MAX).into_par_iter().find_first(...)`.
The range `0..u64::MAX` is half-open, so exactly the candidates
`p < 2^64 - 1` are tried; `none` models the `.expect` panic when none of
them satisfies the predicate. -/
def find_k2_pow (scrypt8 : List Nat → List Nat → List Nat)
    (challenge : List Nat) (nonce : Nat) (difficulty : Nat) : Option Nat :=
  searchFirst (fun p => decide (hash_k2_pow scrypt8 challenge nonce p < difficulty))
    (2 ^ 64 - 1) 0

/-- Embeds `hash_k3_pow`: password is `challenge ‖ nonce_LE ‖ indexes ‖ k2_pow_LE`. -/
def hash_k3_pow (scrypt8 : List Nat → List Nat → List Nat)
    (challenge : List Nat) (nonce : Nat) (indexes : List Nat)
    (k2_pow : Nat) (k3_pow : Nat) : Nat :=
  fromLEBytes (scrypt8 (challenge ++ toLEBytes 4 nonce ++ indexes ++ toLEBytes 8 k2_pow)
    (toLEBytes 8 k3_pow))

/-- Embeds `find_k3_pow`, same search shape as `find_k2_pow`. -/
def find_k3_pow (scrypt8 : List Nat → List Nat → List Nat)
    (challenge : List Nat) (nonce : Nat) (indexes : List Nat)
    (difficulty : Nat) (k2_pow : Nat) : Option Nat :=
  searchFirst
    (fun p => decide (hash_k3_pow scrypt8 challenge nonce indexes k2_pow p < difficulty))
    (2 ^ 64 - 1) 0

/-! ## `src/pow/randomx.rs`: RandomX proof of work

The RandomX VM is an external primitive; `vm.calculate_hash` is modelled as
a total oracle `rx : input bytes → 32-byte hash` (the claims set hash
computation errors aside).  The parallel `find_any` search is modelled by
its lowest-index-first schedule, one admissible outcome of `find_any`. -/

inductive PowError where
  | PoWNotFound : PowError
  | InvalidPoW : PowError
deriving DecidableEq

/-- The 16-byte hash input `pow_nonce.to_le_bytes()[0..7] ‖ [nonce_group] ‖ challenge`
shared by `PoW::prove` and `PoW::verify`. -/
def powInput (pow_nonce : Nat) (nonce_group : Nat) (challenge : List Nat) : List Nat :=
  (toLEBytes 8 pow_nonce).take 7 ++ [nonce_group] ++ challenge

/-- Embeds `PoW::prove`: search `[0, 2^56)` for a nonce whose RandomX hash is
byte-wise lexicographically below the 32-byte difficulty; `PoWNotFound` when
the range is exhausted. -/
def PoW_prove (rx : List Nat → List Nat) (nonce_group : Nat)
    (challenge : List Nat) (difficulty : List Nat) : Except PowError Nat :=
  match searchFirst (fun n => lexLt (rx (powInput n nonce_group challenge)) difficulty)
      (2 ^ 56) 0 with
  | some n => .ok n
  | none => .error .PoWNotFound

/-- Embeds `PoW::verify`: recompute the hash and fail with `InvalidPoW` when it
is not strictly below the difficulty. -/
def PoW_verify (rx : List Nat → List Nat) (pow : Nat) (nonce_group : Nat)
    (challenge : List Nat) (difficulty : List Nat) : Except PowError Unit :=
  if lexLt (rx (powInput pow nonce_group challenge)) difficulty then .ok () else
    .error .InvalidPoW

/-! ## `src/service/src/service.rs`: the proof service state machine

`PostService::gen_proof` is embedded as a pure transition function on the
service state.  The spawned worker thread is represented by the
`WorkerStatus` of the in-flight process: `running` while
`handle.is_finished()` is false, `finished r` once joining would yield `r`.
`post::metadata::load` is an external effect, passed as an oracle
`loadMeta`.  `generate_proof` runs inside the worker and never in
`gen_proof` itself, so its result only appears through `WorkerStatus`. -/

structure ProofS where
  nonce : Nat
  indices : List Nat
  pow : Nat
deriving DecidableEq

structure PostMetadataS where
  node_id : List Nat
  commitment_atx_id : List Nat
  num_units : Nat
  labels_per_unit : Nat
deriving DecidableEq

structure ProofMetadataS where
  challenge : List Nat
  node_id : List Nat
  commitment_atx_id : List Nat
  num_units : Nat
  labels_per_unit : Nat
deriving DecidableEq

inductive WorkerStatus where
  | running : WorkerStatus
  | finished : Except Unit ProofS → WorkerStatus

structure ProofGenProcess where
  challenge : List Nat
  status : WorkerStatus

structure PostServiceS where
  proofGeneration : Option ProofGenProcess

inductive ProofGenState where
  | inProgress : ProofGenState
  | finished : ProofS → ProofMetadataS → ProofGenState

inductive ServiceError where
  | busyDifferentChallenge : ServiceError
  | invalidChallengeFormat : ServiceError
  | metadataLoadFailed : ServiceError
  | workerFailed : ServiceError
deriving DecidableEq

/-- Embeds `PostService::gen_proof`.  Mirrors the source order: the
busy-different-challenge guard first; then `is_finished` (still running →
`InProgress` with the state untouched); on a finished worker the process is
taken out of the state (`take()`) before the result is examined, metadata is
reloaded, and the challenge is converted to `[u8; 32]`; with no job in
flight the 32-byte conversion guards the spawn of a new worker. -/
def gen_proof (loadMeta : Except Unit PostMetadataS) (s : PostServiceS)
    (challenge : List Nat) : PostServiceS × Except ServiceError ProofGenState :=
  match s.proofGeneration with
  | some process =>
    if process.challenge = challenge then
      match process.status with
      | .running => (s, .ok .inProgress)
      | .finished (.ok proof) =>
        match loadMeta with
        | .error _ => (⟨none⟩, .error .metadataLoadFailed)
        | .ok meta =>
          if challenge.length = 32 then
            (⟨none⟩, .ok (.finished proof
              ⟨challenge, meta.node_id, meta.commitment_atx_id,
                meta.num_units, meta.labels_per_unit⟩))
          else (⟨none⟩, .error .invalidChallengeFormat)
      | .finished (.error _) => (⟨none⟩, .error .workerFailed)
    else (s, .error .busyDifferentChallenge)
  | none =>
    if challenge.length = 32 then
      (⟨some ⟨challenge, .running⟩⟩, .ok .inProgress)
    else (s, .error .invalidChallengeFormat)

/-! ## `src/scrypt-ocl/src/lib.rs`: the OpenCL scrypter

The OpenCL kernel is an external primitive; it is modelled as a
deterministic oracle `ker : index → 32-byte label` (spec §4.A).  One batch
enqueues the kernel over `global_work_size` (`gws`) indices and reads
`gws * LABEL_SIZE` (= `gws·16`) bytes back from the `gws·32`-byte device
output buffer into `labels_buffer`, i.e. the full 32-byte outputs of the
first `gws/2` indices of the batch.  `usizeMax` stands for the platform's
`usize::MAX`. -/

structure VrfNonce where
  index : Nat
  label : List Nat
deriving DecidableEq

def chunksGo : Nat → Nat → List Nat → List (List Nat)
  | 0, _, _ => []
  | _, _, [] => []
  | fuel + 1, n, a :: l => (a :: l).take n :: chunksGo fuel n ((a :: l).drop n)

/-- Rust `slice::chunks(n)`: chunks of `n` bytes, the last possibly shorter. -/
def chunks (n : Nat) (l : List Nat) : List (List Nat) :=
  chunksGo l.length n l

def scanGo : List (List Nat) → Nat → List Nat → Option VrfNonce → Option VrfNonce
  | [], _, _, acc => acc
  | l :: ls, id, d, acc =>
    if lexLt l d then scanGo ls (id + 1) l (some ⟨id, l⟩)
    else scanGo ls (id + 1) d acc

/-- Embeds `Scrypter::scan_for_vrf_nonce`: walk the 32-byte chunks of
`labels`, keeping the lowest label seen so far strictly below the running
difficulty (which is lowered to each new best label). -/
def scan_for_vrf_nonce (labels : List Nat) (difficulty : List Nat) : Option VrfNonce :=
  scanGo (chunks 32 labels) 0 difficulty none

/-- The bytes read back into `labels_buffer` for the batch at `start`. -/
def labelsBuffer (ker : Nat → List Nat) (gws start : Nat) : List Nat :=
  (((List.range gws).map (fun i => ker (start + i))).flatten).take (gws * 16)

/-- The VRF-nonce update performed after each batch (source lines 195–212):
scan the freshly read buffer against the current best label (or the
configured difficulty when there is no best yet) and rebase the found
in-batch index by the batch start index. -/
def updateVrf (vd : Option (List Nat)) (vrf : Option VrfNonce)
    (buf : List Nat) (start : Nat) : Option VrfNonce :=
  match vd with
  | none => vrf
  | some d =>
    match (match vrf with
           | some cur => scan_for_vrf_nonce buf cur.label
           | none => scan_for_vrf_nonce buf d) with
    | some n => some ⟨n.index + start, n.label⟩
    | none => vrf

/-- The per-batch label copy (source lines 214–221): zip the 32-byte chunks
of the read buffer with the 16-byte chunks of the current output chunk and
copy the first 16 bytes of each label; bytes beyond the zipped prefix keep
their previous content. -/
def writeChunk (buf : List Nat) (chunk : List Nat) : List Nat :=
  (((List.range (min (buf.length / 32) (chunk.length / 16))).map
      (fun i => (buf.drop (32 * i)).take 16)).flatten) ++
    chunk.drop (16 * min (buf.length / 32) (chunk.length / 16))

/-- The batch loop of `Scrypter::scrypt`: iterate over the
`gws·16`-byte chunks of the output buffer; per batch read the labels back,
update the VRF nonce, and copy the 16-byte truncations into the chunk.
`fuel` bounds the number of iterations; `scrypt` passes `out.length`, which
suffices since every iteration consumes at least one output byte. -/
def scryptLoop (ker : Nat → List Nat) (gws : Nat) (vd : Option (List Nat)) :
    Nat → Nat → List Nat → Option VrfNonce → Option VrfNonce × List Nat
  | 0, _, outRem, vrf => (vrf, outRem)
  | fuel + 1, start, outRem, vrf =>
    if outRem.isEmpty then (vrf, outRem)
    else
      let chunkBytes := min outRem.length (gws * 16)
      let buf := labelsBuffer ker gws start
      let res := scryptLoop ker gws vd fuel (start + gws) (outRem.drop chunkBytes)
        (updateVrf vd vrf buf start)
      (res.1, writeChunk buf (outRem.take chunkBytes) ++ res.2)

inductive ScryptError where
  | LabelsRangeTooBig : ScryptError
  | InvalidBufferSize : Nat → Nat → ScryptError
deriving DecidableEq

/-- Embeds `Scrypter::buffer_len`: `usize::try_from(labels.end - labels.start)`
then `len * LABEL_SIZE`, with the multiply taken as exact: this coincides
with the source's `usize` product exactly when `16·len` fits in `usize`
(see `buffer_len_usize` for the release-mode wrapping semantics and
`buffer_len_usize_agrees`). -/
def buffer_len (usizeMax : Nat) (labelsStart labelsEnd : Nat) : Except ScryptError Nat :=
  if labelsEnd - labelsStart ≤ usizeMax then .ok ((labelsEnd - labelsStart) * 16)
  else .error .LabelsRangeTooBig

structure ScrypterS where
  globalWorkSize : Nat
  vrfDifficulty : Option (List Nat)
  vrfNonce : Option VrfNonce

/-- Embeds `Scrypter::scrypt`.  Returns the final scrypter state, the final
output buffer and the call's result; on a validation error the state and
the output come back untouched, mirroring the early `return Err` before any
kernel work. -/
def scrypt (ker : Nat → List Nat) (usizeMax : Nat) (s : ScrypterS)
    (labelsStart labelsEnd : Nat) (out : List Nat) :
    ScrypterS × List Nat × Except ScryptError (Option VrfNonce) :=
  match buffer_len usizeMax labelsStart labelsEnd with
  | .error e => (s, out, .error e)
  | .ok expected =>
    if out.length ≠ expected then
      (s, out, .error (.InvalidBufferSize out.length expected))
    else
      let res := scryptLoop ker s.globalWorkSize s.vrfDifficulty out.length
        labelsStart out s.vrfNonce
      ({ s with vrfNonce := res.1 }, res.2, .ok res.1)

/-- Embeds `Scrypter::buffer_len` under the release-mode `usize` semantics:
`len * LABEL_SIZE` is a `usize` multiply, so the product wraps modulo
`usize::MAX + 1` (in debug builds the overflow panics instead; either way
the exact `16·len` is not produced once it overflows `usize`). -/
def buffer_len_usize (usizeMax : Nat) (labelsStart labelsEnd : Nat) :
    Except ScryptError Nat :=
  if labelsEnd - labelsStart ≤ usizeMax then
    .ok (((labelsEnd - labelsStart) * 16) % (usizeMax + 1))
  else .error .LabelsRangeTooBig

/-- `Scrypter::scrypt` with its buffer check under the release-mode `usize`
semantics of `buffer_len` (same source lines as `scrypt`, differing only in
the wrapped `expected`). -/
def scrypt_usize (ker : Nat → List Nat) (usizeMax : Nat) (s : ScrypterS)
    (labelsStart labelsEnd : Nat) (out : List Nat) :
    ScrypterS × List Nat × Except ScryptError (Option VrfNonce) :=
  match buffer_len_usize usizeMax labelsStart labelsEnd with
  | .error e => (s, out, .error e)
  | .ok expected =>
    if out.length ≠ expected then
      (s, out, .error (.InvalidBufferSize out.length expected))
    else
      let res := scryptLoop ker s.globalWorkSize s.vrfDifficulty out.length
        labelsStart out s.vrfNonce
      ({ s with vrfNonce := res.1 }, res.2, .ok res.1)

/-- The label indices examined by the VRF scan across the batches of one
`scrypt` call: every batch (even a final, shorter one) reads and scans
exactly `gws·16/32` full labels starting at its batch start. -/
def scannedIndices (gws : Nat) : Nat → Nat → Nat → List Nat
  | 0, _, _ => []
  | fuel + 1, start, rem =>
    if rem = 0 then []
    else (List.range (gws * 16 / 32)).map (fun i => start + i) ++
      scannedIndices gws fuel (start + gws) (rem - min rem (gws * 16))

/-- The counterexample kernel oracle for C6: only label 15 is small. -/
def kerCex : Nat → List Nat :=
  fun i => if i = 15 then List.replicate 32 0 else List.replicate 32 255

/-- The counterexample VRF difficulty for C6. -/
def dCex : List Nat := 1 :: List.replicate 31 255

/-! ## The prover and the verifier (spec-modelled)

The `prove`, `verification`, `difficulty` and `compression` modules of this
repository are not under `src/` (only the integration test
`tests/generate_and_verify.rs` that exercises them is), so they are
modelled from the spec (§4.E, §4.H, §4.I).  The AES-based per-label nonce
value is an oracle `v : nonce → index → u64 value` (the spec itself leaves
the `ConstDProver` byte contract opaque), the bit-packed index encoding is
an oracle `pack` used identically by the prover and the verifier, and the
scrypt and RandomX primitives are the same oracles as above. -/

/-- Modelled from the spec: §4.E `proving_difficulty` (`difficulty` is not
under `src/`): `T = floor(k1 · 2^64 / num_labels)`, erroring when
`k1 ≥ num_labels`. -/
def proving_difficulty (k1 num_labels : Nat) : Option Nat :=
  if k1 < num_labels then some (k1 * 2 ^ 64 / num_labels) else none

/-- The proof configuration of §4.H together with the derived PoW
difficulties of `ProvingParams`. -/
structure ProofCfg where
  k1 : Nat
  k2 : Nat
  k3 : Nat
  pow_difficulty : List Nat
  k2_pow_difficulty : Nat
  k3_pow_difficulty : Nat
deriving DecidableEq

/-- Modelled from the spec: §4.H step 3, the per-nonce hit collection — the
indices whose nonce value is strictly below the difficulty, in ascending
scan order. -/
def collectIndices (v : Nat → Nat → Nat) (n difficulty total : Nat) : List Nat :=
  (List.range total).filter (fun i => decide (v n i < difficulty))

/-- Modelled from the spec: §4.H `generate_proof` (`prove` is not under
`src/`): find the first nonce with at least `k2` hits, take its first `k2`
hit indices, chain the k2/k3 scrypt PoWs (which must succeed) and the
RandomX PoW over `(nonce / 16, challenge[0..8])`. -/
def generate_proof (v : Nat → Nat → Nat) (rx : List Nat → List Nat)
    (scrypt8 : List Nat → List Nat → List Nat) (pack : List Nat → List Nat)
    (cfg : ProofCfg) (challenge : List Nat) (total nonces : Nat) : Option ProofS :=
  match proving_difficulty cfg.k1 total with
  | none => none
  | some difficulty =>
    match searchFirst
        (fun n => decide (cfg.k2 ≤ (collectIndices v n difficulty total).length))
        nonces 0 with
    | none => none
    | some n =>
      match find_k2_pow scrypt8 challenge n cfg.k2_pow_difficulty with
      | none => none
      | some k2p =>
        match find_k3_pow scrypt8 challenge n
            (pack ((collectIndices v n difficulty total).take cfg.k2))
            cfg.k3_pow_difficulty k2p with
        | none => none
        | some _ =>
          match PoW_prove rx (n / 16) (challenge.take 8) cfg.pow_difficulty with
          | .error _ => none
          | .ok pow => some ⟨n, (collectIndices v n difficulty total).take cfg.k2, pow⟩

/-- Decides that a list of indices is strictly ascending (§4.I step 2). -/
def strictAscending : List Nat → Bool
  | [] => true
  | [_] => true
  | a :: b :: rest => decide (a < b) && strictAscending (b :: rest)

/-- Modelled from the spec: §4.I verifier (`verification` is not under
`src/`): re-derive the difficulty; check the index list has exactly `k2`
strictly ascending in-range entries; check each index's nonce value is
below the difficulty; recompute the k2/k3 PoWs and check their hashes; and
check the RandomX PoW of the proof's `pow` field. -/
def verify_proof (v : Nat → Nat → Nat) (rx : List Nat → List Nat)
    (scrypt8 : List Nat → List Nat → List Nat) (pack : List Nat → List Nat)
    (cfg : ProofCfg) (challenge : List Nat) (total : Nat) (proof : ProofS) : Bool :=
  match proving_difficulty cfg.k1 total with
  | none => false
  | some difficulty =>
    decide (proof.indices.length = cfg.k2) &&
    strictAscending proof.indices &&
    proof.indices.all (fun i => decide (i < total)) &&
    proof.indices.all (fun i => decide (v proof.nonce i < difficulty)) &&
    (match find_k2_pow scrypt8 challenge proof.nonce cfg.k2_pow_difficulty with
     | none => false
     | some k2p =>
       decide (hash_k2_pow scrypt8 challenge proof.nonce k2p < cfg.k2_pow_difficulty) &&
       (match find_k3_pow scrypt8 challenge proof.nonce (pack proof.indices)
           cfg.k3_pow_difficulty k2p with
        | none => false
        | some k3p =>
          decide (hash_k3_pow scrypt8 challenge proof.nonce (pack proof.indices)
            k2p k3p < cfg.k3_pow_difficulty))) &&
    lexLt (rx (powInput proof.pow (proof.nonce / 16) (challenge.take 8)))
      cfg.pow_difficulty

/-! ## Theorems -/

theorem lexLt_irrefl : ∀ l : List Nat, lexLt l l = false := by
  intro l
  induction l with
  | nil => rfl
  | cons a xs ih => simp [lexLt, ih]

theorem lexLt_trans : ∀ a b c : List Nat,
    lexLt a b = true → lexLt b c = true → lexLt a c = true := by
  intro a
  induction a with
  | nil =>
    intro b c hab hbc
    cases b with
    | nil => simp [lexLt] at hab
    | cons y ys =>
      cases c with
      | nil => simp [lexLt] at hbc
      | cons z zs => simp [lexLt]
  | cons x xs ih =>
    intro b c hab hbc
    cases b with
    | nil => simp [lexLt] at hab
    | cons y ys =>
      cases c with
      | nil => simp [lexLt] at hbc
      | cons z zs =>
        simp only [lexLt] at hab hbc ⊢
        rcases Nat.lt_trichotomy x y with hxy | hxy | hxy
        · rcases Nat.lt_trichotomy y z with hyz | hyz | hyz
          · rw [if_pos (show x < z by omega)]
          · subst hyz
            rw [if_pos hxy]
          · rw [if_neg (show ¬ y < z by omega), if_pos hyz] at hbc
            exact (Bool.false_ne_true hbc).elim
        · subst hxy
          rw [if_neg (show ¬ x < x by omega), if_neg (show ¬ x < x by omega)] at hab
          rcases Nat.lt_trichotomy x z with hxz | hxz | hxz
          · rw [if_pos hxz]
          · subst hxz
            rw [if_neg (show ¬ x < x by omega), if_neg (show ¬ x < x by omega)] at hbc ⊢
            exact ih ys zs hab hbc
          · rw [if_neg (show ¬ x < z by omega), if_pos hxz] at hbc
            exact (Bool.false_ne_true hbc).elim
        · rw [if_neg (show ¬ x < y by omega), if_pos hxy] at hab
          exact (Bool.false_ne_true hab).elim

theorem lexLt_asymm {a b : List Nat} (h : lexLt a b = true) : lexLt b a = false := by
  by_contra hc
  have hba : lexLt b a = true := by
    cases hh : lexLt b a
    · exact absurd hh hc
    · rfl
  have := lexLt_trans a b a h hba
  rw [lexLt_irrefl] at this
  exact Bool.false_ne_true this

theorem searchFirst_eq_some (f : Nat → Bool) :
    ∀ fuel start p, searchFirst f fuel start = some p →
      f p = true ∧ start ≤ p ∧ p < start + fuel ∧
        ∀ q, start ≤ q → q < p → f q = false := by
  intro fuel
  induction fuel with
  | zero => intro start p h; simp [searchFirst] at h
  | succ n ih =>
    intro start p h
    simp only [searchFirst] at h
    by_cases hf : f start = true
    · simp [hf] at h
      subst h
      exact ⟨hf, Nat.le_refl _, by omega, fun q hq1 hq2 => absurd hq1 (by omega)⟩
    · have hf0 : f start = false := by
        cases hh : f start
        · rfl
        · exact absurd hh hf
      simp [hf0] at h
      obtain ⟨h1, h2, h3, h4⟩ := ih (start + 1) p h
      refine ⟨h1, by omega, by omega, ?_⟩
      intro q hq1 hq2
      rcases Nat.eq_or_lt_of_le hq1 with heq | hlt
      · rw [← heq]; exact hf0
      · exact h4 q hlt hq2

theorem searchFirst_isSome (f : Nat → Bool) :
    ∀ fuel start p0, start ≤ p0 → p0 < start + fuel → f p0 = true →
      ∃ p, searchFirst f fuel start = some p := by
  intro fuel
  induction fuel with
  | zero => intro start p0 h1 h2 h3; omega
  | succ n ih =>
    intro start p0 h1 h2 h3
    simp only [searchFirst]
    by_cases hf : f start = true
    · exact ⟨start, by simp [hf]⟩
    · have hf0 : f start = false := by
        cases hh : f start
        · rfl
        · exact absurd hh hf
      have hne : start ≠ p0 := by
        intro he; rw [he] at hf0; rw [hf0] at h3; exact Bool.false_ne_true h3
      obtain ⟨p, hp⟩ := ih (start + 1) p0 (by omega) (by omega) h3
      exact ⟨p, by simp [hf0, hp]⟩

theorem searchFirst_eq_none (f : Nat → Bool) :
    ∀ fuel start, searchFirst f fuel start = none →
      ∀ q, start ≤ q → q < start + fuel → f q = false := by
  intro fuel start h q hq1 hq2
  cases hh : f q
  · rfl
  · obtain ⟨p, hp⟩ := searchFirst_isSome f fuel start q hq1 hq2 hh
    rw [hp] at h
    exact absurd h (by simp)

/-- Claim C2: whenever some satisfier exists (in the searched range
`0..u64::MAX`), `find_k2_pow` returns the smallest non-negative `p` whose
scrypt hash is strictly below the difficulty; the result is the unique
least satisfier, so re-running with the same inputs returns the same value. -/
theorem find_k2_pow_returns_least (scrypt8 : List Nat → List Nat → List Nat)
    (challenge : List Nat) (nonce : Nat) (difficulty : Nat) (p0 : Nat)
    (hrange : p0 < 2 ^ 64 - 1)
    (hsat : hash_k2_pow scrypt8 challenge nonce p0 < difficulty) :
    ∃ p, find_k2_pow scrypt8 challenge nonce difficulty = some p ∧
      hash_k2_pow scrypt8 challenge nonce p < difficulty ∧
      ∀ q, hash_k2_pow scrypt8 challenge nonce q < difficulty → p ≤ q := by
  obtain ⟨p, hp⟩ := searchFirst_isSome
    (fun p => decide (hash_k2_pow scrypt8 challenge nonce p < difficulty))
    (2 ^ 64 - 1) 0 p0 (Nat.zero_le _) (by omega) (by simpa using hsat)
  obtain ⟨h1, _, _, h4⟩ := searchFirst_eq_some _ _ _ _ hp
  refine ⟨p, hp, by simpa using h1, ?_⟩
  intro q hq
  by_contra hlt
  have := h4 q (Nat.zero_le _) (by omega)
  simp at this
  omega

/-- Witness for C2: a concrete oracle whose hash is constantly `0` makes `0`
the least satisfier below difficulty `1`. -/
theorem find_k2_pow_returns_least_witness :
    ∃ p, find_k2_pow (fun _ _ => List.replicate 8 0) (List.replicate 32 0) 0 1 = some p ∧
      hash_k2_pow (fun _ _ => List.replicate 8 0) (List.replicate 32 0) 0 p < 1 ∧
      ∀ q, hash_k2_pow (fun _ _ => List.replicate 8 0) (List.replicate 32 0) 0 q < 1 → p ≤ q :=
  find_k2_pow_returns_least (fun _ _ => List.replicate 8 0) (List.replicate 32 0) 0 1 0
    (by decide) (by decide)

/-- Claim C3: any `Ok(pow_nonce)` returned by `PoW::prove` satisfies
`pow_nonce < 2^56` and has its RandomX hash of
`(low 7 LE bytes of pow_nonce ‖ nonce_group ‖ challenge)` strictly below the
difficulty; if no nonce in `[0, 2^56)` satisfies this, `prove` returns
`PoWNotFound`. -/
theorem PoW_prove_spec (rx : List Nat → List Nat) (nonce_group : Nat)
    (challenge : List Nat) (difficulty : List Nat) :
    (∀ n, PoW_prove rx nonce_group challenge difficulty = .ok n →
      n < 2 ^ 56 ∧ lexLt (rx (powInput n nonce_group challenge)) difficulty = true) ∧
    ((∀ m, m < 2 ^ 56 → lexLt (rx (powInput m nonce_group challenge)) difficulty = false) →
      PoW_prove rx nonce_group challenge difficulty = .error .PoWNotFound) := by
  constructor
  · intro n hn
    unfold PoW_prove at hn
    cases hs : searchFirst
        (fun n => lexLt (rx (powInput n nonce_group challenge)) difficulty) (2 ^ 56) 0 with
    | none => rw [hs] at hn; exact absurd hn (by simp)
    | some p =>
      rw [hs] at hn
      simp at hn
      subst hn
      obtain ⟨h1, _, h3, _⟩ := searchFirst_eq_some _ _ _ _ hs
      exact ⟨by omega, h1⟩
  · intro hall
    unfold PoW_prove
    cases hs : searchFirst
        (fun n => lexLt (rx (powInput n nonce_group challenge)) difficulty) (2 ^ 56) 0 with
    | none => rfl
    | some p =>
      obtain ⟨h1, _, h3, _⟩ := searchFirst_eq_some _ _ _ _ hs
      have := hall p (by omega)
      rw [this] at h1
      exact (Bool.false_ne_true h1).elim

/-- Witness for C3: with an oracle hashing everything to `[0]` and difficulty
`[1]`, the nonce `0` is found and satisfies both conclusions. -/
theorem PoW_prove_spec_witness :
    (0 : Nat) < 2 ^ 56 ∧
      lexLt ((fun _ => [0]) (powInput 0 7 (List.replicate 8 1))) [1] = true :=
  (PoW_prove_spec (fun _ => [0]) 7 (List.replicate 8 1) [1]).1 0 rfl

/-- Claim C4: `PoW::verify` returns `Ok(())` exactly when the RandomX hash of
`(low 7 LE bytes of pow ‖ nonce_group ‖ challenge)` is strictly below the
difficulty, and fails with `InvalidPoW` exactly when it is not. -/
theorem PoW_verify_spec (rx : List Nat → List Nat) (pow : Nat) (nonce_group : Nat)
    (challenge : List Nat) (difficulty : List Nat) :
    (PoW_verify rx pow nonce_group challenge difficulty = .ok () ↔
      lexLt (rx (powInput pow nonce_group challenge)) difficulty = true) ∧
    (PoW_verify rx pow nonce_group challenge difficulty = .error .InvalidPoW ↔
      lexLt (rx (powInput pow nonce_group challenge)) difficulty = false) := by
  unfold PoW_verify
  cases h : lexLt (rx (powInput pow nonce_group challenge)) difficulty
  · simp
  · simp

/-- Claim C7: for a fixed 32-byte challenge, `gen_proof` follows the §4.J
state machine: idle → spawn worker and return `InProgress`; worker still
running → `InProgress` with the state unchanged and no new worker; worker
finished successfully → `Finished{proof, metadata}` and back to idle. -/
theorem gen_proof_state_machine (loadMeta : Except Unit PostMetadataS)
    (c : List Nat) (p : ProofS) (m : PostMetadataS)
    (hc : c.length = 32) (hlm : loadMeta = .ok m) :
    gen_proof loadMeta ⟨none⟩ c = (⟨some ⟨c, .running⟩⟩, .ok .inProgress) ∧
    gen_proof loadMeta ⟨some ⟨c, .running⟩⟩ c = (⟨some ⟨c, .running⟩⟩, .ok .inProgress) ∧
    gen_proof loadMeta ⟨some ⟨c, .finished (.ok p)⟩⟩ c =
      (⟨none⟩, .ok (.finished p
        ⟨c, m.node_id, m.commitment_atx_id, m.num_units, m.labels_per_unit⟩)) := by
  refine ⟨?_, ?_, ?_⟩ <;> simp [gen_proof, hc, hlm]

/-- Witness for C7 at a concrete 32-byte challenge, proof and metadata. -/
theorem gen_proof_state_machine_witness :
    gen_proof (.ok ⟨[], [], 0, 0⟩) ⟨none⟩ (List.replicate 32 0) =
      (⟨some ⟨List.replicate 32 0, .running⟩⟩, .ok .inProgress) ∧
    gen_proof (.ok ⟨[], [], 0, 0⟩) ⟨some ⟨List.replicate 32 0, .running⟩⟩
        (List.replicate 32 0) =
      (⟨some ⟨List.replicate 32 0, .running⟩⟩, .ok .inProgress) ∧
    gen_proof (.ok ⟨[], [], 0, 0⟩)
        ⟨some ⟨List.replicate 32 0, .finished (.ok ⟨0, [], 0⟩)⟩⟩ (List.replicate 32 0) =
      (⟨none⟩, .ok (.finished ⟨0, [], 0⟩ ⟨List.replicate 32 0, [], [], 0, 0⟩)) :=
  gen_proof_state_machine (.ok ⟨[], [], 0, 0⟩) (List.replicate 32 0) ⟨0, [], 0⟩
    ⟨[], [], 0, 0⟩ (by simp) rfl

/-- Claim C8: while a job for challenge `c` is in flight (in any worker
state), `gen_proof(c')` with `c' ≠ c` fails with the busy-different-challenge
error and leaves the state unchanged, so the existing job keeps running and
no new worker is spawned. -/
theorem gen_proof_busy_different_challenge (loadMeta : Except Unit PostMetadataS)
    (process : ProofGenProcess) (c' : List Nat) (hne : process.challenge ≠ c') :
    gen_proof loadMeta ⟨some process⟩ c' =
      (⟨some process⟩, .error .busyDifferentChallenge) := by
  simp [gen_proof, hne]

/-- Witness for C8: in-flight challenge `[0; 32]`, requested challenge `[1; 32]`. -/
theorem gen_proof_busy_different_challenge_witness :
    gen_proof (.ok ⟨[], [], 0, 0⟩) ⟨some ⟨List.replicate 32 0, .running⟩⟩
        (List.replicate 32 1) =
      (⟨some ⟨List.replicate 32 0, .running⟩⟩, .error .busyDifferentChallenge) :=
  gen_proof_busy_different_challenge (.ok ⟨[], [], 0, 0⟩)
    ⟨List.replicate 32 0, .running⟩ (List.replicate 32 1) (by simp)

/-- Claim C10: with no job in flight, a challenge whose length is not 32
bytes is rejected without spawning a worker and the service stays idle; and
the 32-byte length check belongs to the job-starting path only: on the
in-flight paths (whose stored challenge is 32 bytes, as established at
spawn) `gen_proof` never surfaces the invalid-challenge-format error. -/
theorem gen_proof_challenge_length_check (loadMeta : Except Unit PostMetadataS)
    (c : List Nat) (process : ProofGenProcess)
    (hbad : c.length ≠ 32) (hinv : process.challenge.length = 32) :
    gen_proof loadMeta ⟨none⟩ c = (⟨none⟩, .error .invalidChallengeFormat) ∧
    (gen_proof loadMeta ⟨some process⟩ c).2 ≠ .error .invalidChallengeFormat := by
  constructor
  · simp [gen_proof, hbad]
  · by_cases hch : process.challenge = c
    · subst hch
      cases hst : process.status with
      | running => simp [gen_proof, hst]
      | finished r =>
        cases r with
        | ok proof =>
          cases loadMeta with
          | error e => simp [gen_proof, hst]
          | ok m => simp [gen_proof, hst, hinv]
        | error e => simp [gen_proof, hst]
    · simp [gen_proof, hch]

/-- Witness for C10: a 31-byte challenge against the idle service, and a
running process whose stored challenge has 32 bytes. -/
theorem gen_proof_challenge_length_check_witness :
    gen_proof (.ok ⟨[], [], 0, 0⟩) ⟨none⟩ (List.replicate 31 0) =
      (⟨none⟩, .error .invalidChallengeFormat) ∧
    (gen_proof (.ok ⟨[], [], 0, 0⟩) ⟨some ⟨List.replicate 32 0, .running⟩⟩
        (List.replicate 31 0)).2 ≠ .error .invalidChallengeFormat :=
  gen_proof_challenge_length_check (.ok ⟨[], [], 0, 0⟩) (List.replicate 31 0)
    ⟨List.replicate 32 0, .running⟩ (by simp) (by simp)

/-- `buffer_len_usize` agrees with the exact-arithmetic `buffer_len`
exactly when `16·len` fits in `usize`. -/
theorem buffer_len_usize_agrees (usizeMax labelsStart labelsEnd : Nat)
    (h : (labelsEnd - labelsStart) * 16 ≤ usizeMax) :
    buffer_len_usize usizeMax labelsStart labelsEnd =
      buffer_len usizeMax labelsStart labelsEnd := by
  unfold buffer_len_usize buffer_len
  have hle : labelsEnd - labelsStart ≤ usizeMax := by omega
  rw [if_pos hle, if_pos hle, Nat.mod_eq_of_lt (by omega)]

/-- `scrypt_usize` agrees with the exact-arithmetic `scrypt` exactly when
`16·len` fits in `usize` — the regime every real byte buffer of length
`16·len` lives in. -/
theorem scrypt_usize_agrees (ker : Nat → List Nat) (usizeMax : Nat) (s : ScrypterS)
    (labelsStart labelsEnd : Nat) (out : List Nat)
    (h : (labelsEnd - labelsStart) * 16 ≤ usizeMax) :
    scrypt_usize ker usizeMax s labelsStart labelsEnd out =
      scrypt ker usizeMax s labelsStart labelsEnd out := by
  unfold scrypt_usize scrypt
  rw [buffer_len_usize_agrees usizeMax labelsStart labelsEnd h]

/-- Witness for `scrypt_usize_agrees` at a concrete no-overflow input. -/
theorem scrypt_usize_agrees_witness :
    scrypt_usize (fun _ => []) (2 ^ 64 - 1) ⟨64, none, none⟩ 0 2 [] =
      scrypt (fun _ => []) (2 ^ 64 - 1) ⟨64, none, none⟩ 0 2 [] :=
  scrypt_usize_agrees (fun _ => []) (2 ^ 64 - 1) ⟨64, none, none⟩ 0 2 [] (by decide)

/-- Counterexample to claim C9 as stated: on a 32-bit platform
(`usize::MAX = 2^32 - 1`) the range `0..2^28 + 1` makes the `usize` product
`16·len` wrap to 16, which equals the length of a 16-byte output buffer, so
the `InvalidBufferSize` check is bypassed and the kernel loop runs (labels
are written) even though `out.len() ≠ 16·(end − start)`. -/
theorem scrypt_buffer_check_bypass_counterexample :
    (List.replicate 16 (0 : Nat)).length ≠ ((2 ^ 28 + 1) - 0) * 16 ∧
    (scrypt_usize (fun _ => List.replicate 32 0) (2 ^ 32 - 1) ⟨2, none, none⟩ 0
        (2 ^ 28 + 1) (List.replicate 16 0)).2.2 = .ok none :=
  ⟨by decide, rfl⟩

/-- Claim C9 (amended): `Scrypter::scrypt` validates its inputs before any
kernel work, under the release-mode `usize` semantics of `len * LABEL_SIZE`:
a range length above `usize::MAX` yields `LabelsRangeTooBig`; otherwise,
with `expected = (16·len) mod (usize::MAX + 1)` — the wrapped `usize`
product — an output buffer whose length differs from `expected` yields
`InvalidBufferSize{got, expected}`; in both error cases the output buffer
and the stored VRF nonce (indeed the whole scrypter state) come back
unchanged.  Whenever `16·len` fits in `usize`, `expected` equals
`16·(end − start)` and the original claim's payload is recovered. -/
theorem scrypt_usize_input_validation (ker : Nat → List Nat) (usizeMax : Nat)
    (s : ScrypterS) (labelsStart labelsEnd : Nat) (out : List Nat) :
    (usizeMax < labelsEnd - labelsStart →
      scrypt_usize ker usizeMax s labelsStart labelsEnd out =
        (s, out, .error .LabelsRangeTooBig)) ∧
    (labelsEnd - labelsStart ≤ usizeMax →
      out.length ≠ ((labelsEnd - labelsStart) * 16) % (usizeMax + 1) →
      scrypt_usize ker usizeMax s labelsStart labelsEnd out =
        (s, out, .error (.InvalidBufferSize out.length
          (((labelsEnd - labelsStart) * 16) % (usizeMax + 1))))) ∧
    ((labelsEnd - labelsStart) * 16 ≤ usizeMax →
      out.length ≠ (labelsEnd - labelsStart) * 16 →
      scrypt_usize ker usizeMax s labelsStart labelsEnd out =
        (s, out, .error (.InvalidBufferSize out.length
          ((labelsEnd - labelsStart) * 16)))) := by
  refine ⟨?_, ?_, ?_⟩
  · intro h
    rw [scrypt_usize, buffer_len_usize, if_neg (by omega)]
  · intro h1 h2
    rw [scrypt_usize, buffer_len_usize, if_pos h1]
    simp only [h2, if_pos]
    simp [h2]
  · intro h1 h2
    have hle : labelsEnd - labelsStart ≤ usizeMax := by omega
    have hmod : ((labelsEnd - labelsStart) * 16) % (usizeMax + 1) =
        (labelsEnd - labelsStart) * 16 := Nat.mod_eq_of_lt (by omega)
    rw [scrypt_usize, buffer_len_usize, if_pos hle, hmod]
    simp only [h2, if_pos]
    simp [h2]

/-- Witness for the amended C9: a 32-bit `usize::MAX` with a `2^32`-label
range triggers `LabelsRangeTooBig`; a `2^28 + 1`-label range with an empty
output buffer triggers `InvalidBufferSize{0, 16}` — the wrapped payload,
not `16·len`; and in the no-overflow regime a 2-label range with an empty
buffer triggers `InvalidBufferSize{0, 32}` exactly as the original claim
says. -/
theorem scrypt_usize_input_validation_witness :
    scrypt_usize (fun _ => []) (2 ^ 32 - 1) ⟨64, none, none⟩ 0 (2 ^ 32) [] =
      (⟨64, none, none⟩, [], .error .LabelsRangeTooBig) ∧
    scrypt_usize (fun _ => []) (2 ^ 32 - 1) ⟨64, none, none⟩ 0 (2 ^ 28 + 1) [] =
      (⟨64, none, none⟩, [], .error (.InvalidBufferSize 0 16)) ∧
    scrypt_usize (fun _ => []) (2 ^ 64 - 1) ⟨64, none, none⟩ 0 2 [] =
      (⟨64, none, none⟩, [], .error (.InvalidBufferSize 0 32)) :=
  ⟨(scrypt_usize_input_validation (fun _ => []) (2 ^ 32 - 1) ⟨64, none, none⟩ 0
      (2 ^ 32) []).1 (by decide),
   by
     have h := (scrypt_usize_input_validation (fun _ => []) (2 ^ 32 - 1)
       ⟨64, none, none⟩ 0 (2 ^ 28 + 1) []).2.1 (by decide) (by decide)
     simpa using h,
   (scrypt_usize_input_validation (fun _ => []) (2 ^ 64 - 1) ⟨64, none, none⟩ 0
      2 []).2.2 (by decide) (by decide)⟩

/-! ### Properties of the per-batch VRF scan -/

theorem scanGo_result : ∀ (ls : List (List Nat)) (id : Nat) (d : List Nat)
    (acc : Option VrfNonce),
    scanGo ls id d acc = acc ∨
      ∃ n, scanGo ls id d acc = some n ∧ lexLt n.label d = true := by
  intro ls
  induction ls with
  | nil => intro id d acc; exact Or.inl rfl
  | cons l0 ls ih =>
    intro id d acc
    simp only [scanGo]
    by_cases h0 : lexLt l0 d = true
    · rw [if_pos h0]
      rcases ih (id + 1) l0 (some ⟨id, l0⟩) with h | ⟨n, hn, hlt⟩
      · exact Or.inr ⟨⟨id, l0⟩, h, h0⟩
      · exact Or.inr ⟨n, hn, lexLt_trans _ _ _ hlt h0⟩
    · rw [if_neg h0]
      exact ih (id + 1) d acc

theorem scanGo_min : ∀ (ls : List (List Nat)) (id : Nat) (d : List Nat)
    (acc : Option VrfNonce),
    (∀ a, acc = some a → a.label = d) →
    ∀ n, scanGo ls id d acc = some n → ∀ l ∈ ls, lexLt l n.label = false := by
  intro ls
  induction ls with
  | nil => intro id d acc hinv n h l hl; simp at hl
  | cons l0 ls ih =>
    intro id d acc hinv n h l hl
    simp only [scanGo] at h
    by_cases h0 : lexLt l0 d = true
    · rw [if_pos h0] at h
      rcases List.mem_cons.mp hl with he | hmem
      · subst he
        rcases scanGo_result ls (id + 1) l (some ⟨id, l⟩) with hr | ⟨m, hm, hlt⟩
        · rw [hr] at h
          injection h with h
          rw [← h]
          exact lexLt_irrefl l
        · rw [hm] at h
          injection h with h
          subst h
          exact lexLt_asymm hlt
      · refine ih (id + 1) l0 (some ⟨id, l0⟩) ?_ n h l hmem
        intro a ha
        injection ha with ha
        rw [← ha]
    · rw [if_neg h0] at h
      have h0f : lexLt l0 d = false := by
        cases hc : lexLt l0 d
        · rfl
        · exact absurd hc h0
      rcases List.mem_cons.mp hl with he | hmem
      · subst he
        rcases scanGo_result ls (id + 1) d acc with hr | ⟨m, hm, hlt⟩
        · rw [hr] at h
          rw [hinv n h]
          exact h0f
        · rw [hm] at h
          injection h with h
          subst h
          cases hc : lexLt l m.label
          · rfl
          · exact absurd (lexLt_trans _ _ _ hc hlt) h0
      · exact ih (id + 1) d acc hinv n h l hmem

theorem scanGo_none_iff : ∀ (ls : List (List Nat)) (id : Nat) (d : List Nat),
    (scanGo ls id d none = none ↔ ∀ l ∈ ls, lexLt l d = false) := by
  intro ls
  induction ls with
  | nil => intro id d; simp [scanGo]
  | cons l0 ls ih =>
    intro id d
    simp only [scanGo]
    by_cases h0 : lexLt l0 d = true
    · rw [if_pos h0]
      constructor
      · intro h
        rcases scanGo_result ls (id + 1) l0 (some ⟨id, l0⟩) with hr | ⟨n, hn, _⟩
        · rw [hr] at h
          exact absurd h (by simp)
        · rw [hn] at h
          exact absurd h (by simp)
      · intro h
        have := h l0 (List.mem_cons_self l0 ls)
        rw [h0] at this
        exact absurd this (by simp)
    · have h0f : lexLt l0 d = false := by
        cases hc : lexLt l0 d
        · rfl
        · exact absurd hc h0
      rw [if_neg h0, ih (id + 1) d]
      constructor
      · intro h l hl
        rcases List.mem_cons.mp hl with he | hmem
        · rw [he]; exact h0f
        · exact h l hmem
      · intro h l hl
        exact h l (List.mem_cons_of_mem _ hl)

theorem scanGo_pick : ∀ (ls : List (List Nat)) (id : Nat) (d : List Nat)
    (acc : Option VrfNonce) (n : VrfNonce),
    scanGo ls id d acc = some n →
    acc = some n ∨ ∃ j, j < ls.length ∧ n.index = id + j ∧ ls[j]? = some n.label := by
  intro ls
  induction ls with
  | nil => intro id d acc n h; exact Or.inl h
  | cons l0 ls ih =>
    intro id d acc n h
    simp only [scanGo] at h
    by_cases h0 : lexLt l0 d = true
    · rw [if_pos h0] at h
      rcases ih (id + 1) l0 (some ⟨id, l0⟩) n h with hacc | ⟨j, hj, hidx, hget⟩
      · injection hacc with hacc
        right
        refine ⟨0, by simp, ?_, ?_⟩
        · rw [← hacc]; simp
        · rw [← hacc]; simp
      · right
        refine ⟨j + 1, by simpa using hj, by omega, by simpa using hget⟩
    · rw [if_neg h0] at h
      rcases ih (id + 1) d acc n h with hacc | ⟨j, hj, hidx, hget⟩
      · exact Or.inl hacc
      · right
        refine ⟨j + 1, by simpa using hj, by omega, by simpa using hget⟩

/-! ### Uniform-block flatten lemmas -/

theorem flatten_length_uniform : ∀ (bs : List (List Nat)) (m : Nat),
    (∀ b ∈ bs, b.length = m) → bs.flatten.length = m * bs.length := by
  intro bs
  induction bs with
  | nil => intro m h; simp
  | cons b bs ih =>
    intro m h
    have hb : b.length = m := h b (List.mem_cons_self b bs)
    have := ih m (fun x hx => h x (List.mem_cons_of_mem _ hx))
    simp [hb, this]
    ring

theorem flatten_take_uniform : ∀ (bs : List (List Nat)) (m k : Nat),
    (∀ b ∈ bs, b.length = m) → k ≤ bs.length →
    bs.flatten.take (m * k) = (bs.take k).flatten := by
  intro bs
  induction bs with
  | nil => intro m k h1 h2; simp
  | cons b bs ih =>
    intro m k h1 h2
    cases k with
    | zero => simp
    | succ k =>
      have hb : b.length = m := h1 b (List.mem_cons_self b bs)
      simp only [List.flatten_cons, List.take_succ_cons]
      rw [List.take_append_eq_append_take]
      have hmk : m * (k + 1) = m + m * k := by ring
      have hble : b.length ≤ m * (k + 1) := by rw [hb]; omega
      rw [List.take_of_length_le hble]
      have hsub : m * (k + 1) - b.length = m * k := by rw [hb]; omega
      rw [hsub, ih m k (fun x hx => h1 x (List.mem_cons_of_mem _ hx)) (by simp at h2; omega)]

theorem flatten_drop_uniform : ∀ (bs : List (List Nat)) (m k : Nat),
    (∀ b ∈ bs, b.length = m) → bs.flatten.drop (m * k) = (bs.drop k).flatten := by
  intro bs
  induction bs with
  | nil => intro m k h; simp
  | cons b bs ih =>
    intro m k h
    cases k with
    | zero => simp
    | succ k =>
      have hb : b.length = m := h b (List.mem_cons_self b bs)
      simp only [List.flatten_cons, List.drop_succ_cons]
      rw [List.drop_append_eq_append_drop]
      have hmk : m * (k + 1) = m + m * k := by ring
      have hble : b.length ≤ m * (k + 1) := by rw [hb]; omega
      rw [List.drop_of_length_le hble]
      have hsub : m * (k + 1) - b.length = m * k := by rw [hb]; omega
      rw [hsub, ih m k (fun x hx => h x (List.mem_cons_of_mem _ hx))]
      simp

theorem flatten_block_uniform (bs : List (List Nat)) (m j : Nat) (b : List Nat)
    (h : ∀ x ∈ bs, x.length = m) (hget : bs[j]? = some b) :
    (bs.flatten.drop (m * j)).take m = b := by
  rw [flatten_drop_uniform bs m j h]
  have hj : j < bs.length := by
    by_contra hc
    rw [List.getElem?_eq_none (by omega)] at hget
    exact absurd hget (by simp)
  have hbj : bs[j] = b := by
    have := List.getElem?_eq_getElem hj
    rw [this] at hget
    injection hget
  rw [List.drop_eq_getElem_cons hj, hbj]
  simp only [List.flatten_cons]
  have hb : b.length = m := h b (by rw [← hbj]; exact List.getElem_mem hj)
  rw [List.take_append_eq_append_take, List.take_of_length_le (by omega)]
  simp [hb]

theorem chunksGo_flatten32 : ∀ (ls : List (List Nat)) (fuel : Nat),
    (∀ l ∈ ls, l.length = 32) → ls.flatten.length ≤ fuel →
    chunksGo fuel 32 ls.flatten = ls := by
  intro ls
  induction ls with
  | nil => intro fuel h1 h2; cases fuel <;> rfl
  | cons l0 ls ih =>
    intro fuel h1 h2
    have hl0 : l0.length = 32 := h1 l0 (List.mem_cons_self l0 ls)
    have hfl : (l0 :: ls).flatten = l0 ++ ls.flatten := by simp
    rw [hfl] at h2 ⊢
    simp only [List.length_append, hl0] at h2
    cases fuel with
    | zero => omega
    | succ f =>
      cases l0 with
      | nil => simp at hl0
      | cons a l0t =>
        calc chunksGo (f + 1) 32 ((a :: l0t) ++ ls.flatten)
            = chunksGo (f + 1) 32 (a :: (l0t ++ ls.flatten)) := by
              rw [List.cons_append]
          _ = (a :: (l0t ++ ls.flatten)).take 32 ::
                chunksGo f 32 ((a :: (l0t ++ ls.flatten)).drop 32) := rfl
          _ = ((a :: l0t) ++ ls.flatten).take 32 ::
                chunksGo f 32 (((a :: l0t) ++ ls.flatten).drop 32) := by
              rw [List.cons_append]
          _ = (a :: l0t) :: chunksGo f 32 ls.flatten := by
              rw [show (32 : Nat) = (a :: l0t).length from hl0.symm]
              simp
          _ = (a :: l0t) :: ls := by
              rw [ih f (fun x hx => h1 x (List.mem_cons_of_mem _ hx)) (by omega)]

theorem chunks_flatten32 (ls : List (List Nat)) (h : ∀ l ∈ ls, l.length = 32) :
    chunks 32 ls.flatten = ls :=
  chunksGo_flatten32 ls _ h (Nat.le_refl _)

theorem labelsBuffer_length (ker : Nat → List Nat) (gws start : Nat)
    (hker : ∀ i, (ker i).length = 32) :
    (labelsBuffer ker gws start).length = gws * 16 := by
  unfold labelsBuffer
  rw [List.length_take]
  have : (((List.range gws).map (fun i => ker (start + i))).flatten).length = 32 * gws := by
    rw [flatten_length_uniform _ 32 (by intro b hb; simp at hb; obtain ⟨i, _, rfl⟩ := hb; exact hker _)]
    simp
  omega

theorem labelsBuffer_chunks (ker : Nat → List Nat) (gws start : Nat)
    (hker : ∀ i, (ker i).length = 32) (heven : gws % 2 = 0) :
    chunks 32 (labelsBuffer ker gws start) =
      (List.range (gws / 2)).map (fun i => ker (start + i)) := by
  unfold labelsBuffer
  have huni : ∀ b ∈ (List.range gws).map (fun i => ker (start + i)), b.length = 32 := by
    intro b hb; simp at hb; obtain ⟨i, _, rfl⟩ := hb; exact hker _
  have h1 : (((List.range gws).map (fun i => ker (start + i))).flatten).take (gws * 16)
      = (((List.range gws).map (fun i => ker (start + i))).take (gws / 2)).flatten := by
    rw [show gws * 16 = 32 * (gws / 2) by omega]
    exact flatten_take_uniform _ 32 (gws / 2) huni (by simp; omega)
  rw [h1, ← List.map_take, List.take_range, show min (gws / 2) gws = gws / 2 by omega]
  exact chunks_flatten32 _ (by intro b hb; simp at hb; obtain ⟨i, _, rfl⟩ := hb; exact hker _)

/-! ### Properties of the per-batch VRF update -/

theorem updateVrf_good (d : List Nat) (vrf : Option VrfNonce) (buf : List Nat)
    (start : Nat)
    (hg : ∀ v, vrf = some v → lexLt v.label d = true) :
    ∀ v', updateVrf (some d) vrf buf start = some v' → lexLt v'.label d = true := by
  intro v' h
  unfold updateVrf at h
  cases vrf with
  | none =>
    simp only at h
    cases hs : scan_for_vrf_nonce buf d with
    | none => rw [hs] at h; exact absurd h (by simp)
    | some n =>
      rw [hs] at h
      simp at h
      unfold scan_for_vrf_nonce at hs
      rcases scanGo_result (chunks 32 buf) 0 d none with hr | ⟨m, hm, hlt⟩
      · rw [hr] at hs; exact absurd hs (by simp)
      · rw [hm] at hs
        injection hs with hs
        rw [← h]
        simp only
        rw [← hs]
        exact hlt
  | some cur =>
    simp only at h
    cases hs : scan_for_vrf_nonce buf cur.label with
    | none =>
      rw [hs] at h
      simp at h
      rw [← h]
      exact hg cur rfl
    | some n =>
      rw [hs] at h
      simp at h
      unfold scan_for_vrf_nonce at hs
      rcases scanGo_result (chunks 32 buf) 0 cur.label none with hr | ⟨m, hm, hlt⟩
      · rw [hr] at hs; exact absurd hs (by simp)
      · rw [hm] at hs
        injection hs with hs
        rw [← h]
        simp only
        rw [← hs]
        exact lexLt_trans _ _ _ hlt (hg cur rfl)

theorem updateVrf_mono (d : List Nat) (cur : VrfNonce) (buf : List Nat) (start : Nat) :
    ∀ v', updateVrf (some d) (some cur) buf start = some v' →
      v' = cur ∨ lexLt v'.label cur.label = true := by
  intro v' h
  unfold updateVrf at h
  simp only at h
  cases hs : scan_for_vrf_nonce buf cur.label with
  | none =>
    rw [hs] at h
    simp at h
    exact Or.inl h.symm
  | some n =>
    rw [hs] at h
    simp at h
    unfold scan_for_vrf_nonce at hs
    rcases scanGo_result (chunks 32 buf) 0 cur.label none with hr | ⟨m, hm, hlt⟩
    · rw [hr] at hs; exact absurd hs (by simp)
    · rw [hm] at hs
      injection hs with hs
      right
      rw [← h]
      simp only
      rw [← hs]
      exact hlt

theorem updateVrf_some_of_some (d : List Nat) (cur : VrfNonce) (buf : List Nat)
    (start : Nat) :
    ∃ v', updateVrf (some d) (some cur) buf start = some v' := by
  unfold updateVrf
  simp only
  cases hs : scan_for_vrf_nonce buf cur.label with
  | none => exact ⟨cur, rfl⟩
  | some n => exact ⟨⟨n.index + start, n.label⟩, rfl⟩

theorem updateVrf_none_cases (d : List Nat) (vrf : Option VrfNonce) (buf : List Nat)
    (start : Nat) (h : updateVrf (some d) vrf buf start = none) :
    vrf = none ∧ scan_for_vrf_nonce buf d = none := by
  cases vrf with
  | none =>
    refine ⟨rfl, ?_⟩
    unfold updateVrf at h
    simp only at h
    cases hs : scan_for_vrf_nonce buf d with
    | none => rfl
    | some n => rw [hs] at h; exact absurd h (by simp)
  | some cur =>
    obtain ⟨v', hv'⟩ := updateVrf_some_of_some d cur buf start
    rw [hv'] at h
    exact absurd h (by simp)

theorem scan_below (buf dd : List Nat) (n : VrfNonce)
    (hs : scan_for_vrf_nonce buf dd = some n) : lexLt n.label dd = true := by
  unfold scan_for_vrf_nonce at hs
  rcases scanGo_result (chunks 32 buf) 0 dd none with hr | ⟨m, hm, hlt⟩
  · rw [hr] at hs; exact absurd hs (by simp)
  · rw [hm] at hs
    injection hs with hs
    rw [← hs]
    exact hlt

theorem scan_pick_batch (ker : Nat → List Nat) (gws : Nat)
    (hker : ∀ i, (ker i).length = 32) (heven : gws % 2 = 0)
    (start : Nat) (dd : List Nat) (n : VrfNonce)
    (hs : scan_for_vrf_nonce (labelsBuffer ker gws start) dd = some n) :
    n.index < gws / 2 ∧ ker (start + n.index) = n.label := by
  unfold scan_for_vrf_nonce at hs
  rw [labelsBuffer_chunks ker gws start hker heven] at hs
  rcases scanGo_pick _ 0 dd none n hs with hacc | ⟨j, hj, hidx, hget⟩
  · exact absurd hacc (by simp)
  · simp only [List.length_map, List.length_range] at hj
    have hidx' : n.index = j := by omega
    refine ⟨by omega, ?_⟩
    rw [hidx']
    simp [List.getElem?_map, List.getElem?_range, hj] at hget
    exact hget

theorem scan_batch_min (ker : Nat → List Nat) (gws : Nat)
    (hker : ∀ i, (ker i).length = 32) (heven : gws % 2 = 0)
    (start : Nat) (dd : List Nat) (n : VrfNonce)
    (hs : scan_for_vrf_nonce (labelsBuffer ker gws start) dd = some n) :
    ∀ o, o < gws / 2 → lexLt (ker (start + o)) n.label = false := by
  unfold scan_for_vrf_nonce at hs
  rw [labelsBuffer_chunks ker gws start hker heven] at hs
  intro o ho
  refine scanGo_min _ 0 dd none (by intro a ha; exact absurd ha (by simp)) n hs
    (ker (start + o)) ?_
  simp only [List.mem_map, List.mem_range]
  exact ⟨o, ho, rfl⟩

theorem scan_batch_none (ker : Nat → List Nat) (gws : Nat)
    (hker : ∀ i, (ker i).length = 32) (heven : gws % 2 = 0)
    (start : Nat) (dd : List Nat)
    (hs : scan_for_vrf_nonce (labelsBuffer ker gws start) dd = none) :
    ∀ o, o < gws / 2 → lexLt (ker (start + o)) dd = false := by
  unfold scan_for_vrf_nonce at hs
  rw [labelsBuffer_chunks ker gws start hker heven] at hs
  intro o ho
  refine (scanGo_none_iff _ 0 dd).mp hs (ker (start + o)) ?_
  simp only [List.mem_map, List.mem_range]
  exact ⟨o, ho, rfl⟩

theorem writeChunk_length (buf chunk : List Nat) :
    (writeChunk buf chunk).length = chunk.length := by
  unfold writeChunk
  rw [List.length_append, List.length_drop]
  have hlen : (((List.range (min (buf.length / 32) (chunk.length / 16))).map
      (fun i => (buf.drop (32 * i)).take 16)).flatten).length =
      16 * min (buf.length / 32) (chunk.length / 16) := by
    rw [flatten_length_uniform _ 16 ?_]
    · simp
    · intro b hb
      simp only [List.mem_map, List.mem_range] at hb
      obtain ⟨i, hi, rfl⟩ := hb
      rw [List.length_take, List.length_drop]
      omega
  rw [hlen]
  omega

/-! ### Invariants of the scrypt batch loop -/

theorem scryptLoop_good (ker : Nat → List Nat) (gws : Nat) (d : List Nat) :
    ∀ (fuel start : Nat) (outRem : List Nat) (vrf : Option VrfNonce),
    (∀ v, vrf = some v → lexLt v.label d = true) →
    ∀ v', (scryptLoop ker gws (some d) fuel start outRem vrf).1 = some v' →
      lexLt v'.label d = true := by
  intro fuel
  induction fuel with
  | zero =>
    intro start outRem vrf hg v' h
    exact hg v' h
  | succ f ih =>
    intro start outRem vrf hg v' h
    simp only [scryptLoop] at h
    by_cases hemp : outRem.isEmpty
    · rw [if_pos hemp] at h
      exact hg v' h
    · rw [if_neg hemp] at h
      have h' : (scryptLoop ker gws (some d) f (start + gws)
          (outRem.drop (min outRem.length (gws * 16)))
          (updateVrf (some d) vrf (labelsBuffer ker gws start) start)).1 = some v' := h
      exact ih (start + gws) _ _
        (fun v hv => updateVrf_good d vrf _ start hg v hv) v' h'

theorem scryptLoop_mono (ker : Nat → List Nat) (gws : Nat) (d : List Nat) :
    ∀ (fuel start : Nat) (outRem : List Nat) (cur : VrfNonce),
    ∃ v', (scryptLoop ker gws (some d) fuel start outRem (some cur)).1 = some v' ∧
      (v' = cur ∨ lexLt v'.label cur.label = true) := by
  intro fuel
  induction fuel with
  | zero =>
    intro start outRem cur
    exact ⟨cur, rfl, Or.inl rfl⟩
  | succ f ih =>
    intro start outRem cur
    by_cases hemp : outRem.isEmpty
    · refine ⟨cur, ?_, Or.inl rfl⟩
      simp only [scryptLoop]
      rw [if_pos hemp]
    · obtain ⟨w, hw⟩ := updateVrf_some_of_some d cur (labelsBuffer ker gws start) start
      obtain ⟨v', hv', hrel⟩ := ih (start + gws)
        (outRem.drop (min outRem.length (gws * 16))) w
      refine ⟨v', ?_, ?_⟩
      · simp only [scryptLoop]
        rw [if_neg hemp]
        show (scryptLoop ker gws (some d) f (start + gws)
          (outRem.drop (min outRem.length (gws * 16)))
          (updateVrf (some d) (some cur) (labelsBuffer ker gws start) start)).1 = some v'
        rw [hw]
        exact hv'
      · rcases updateVrf_mono d cur (labelsBuffer ker gws start) start w hw with he | hlt
        · rcases hrel with he2 | hlt2
          · exact Or.inl (by rw [he2, he])
          · exact Or.inr (by rw [← he]; exact hlt2)
        · rcases hrel with he2 | hlt2
          · exact Or.inr (by rw [he2]; exact hlt)
          · exact Or.inr (lexLt_trans _ _ _ hlt2 hlt)

theorem updateVrf_min_step (ker : Nat → List Nat) (gws : Nat) (d : List Nat)
    (hker : ∀ i, (ker i).length = 32) (heven : gws % 2 = 0)
    (start : Nat) (vrf : Option VrfNonce) (P : Nat → Prop)
    (hp : ∀ v, vrf = some v → ∀ i, P i → lexLt (ker i) v.label = false)
    (hpn : vrf = none → ∀ i, P i → lexLt (ker i) d = false) :
    ∀ w, updateVrf (some d) vrf (labelsBuffer ker gws start) start = some w →
      ∀ i, (P i ∨ ∃ o, o < gws / 2 ∧ i = start + o) → lexLt (ker i) w.label = false := by
  intro w hw i hcase
  unfold updateVrf at hw
  cases vrf with
  | none =>
    simp only at hw
    cases hs : scan_for_vrf_nonce (labelsBuffer ker gws start) d with
    | none => rw [hs] at hw; exact absurd hw (by simp)
    | some n =>
      rw [hs] at hw
      simp at hw
      have hwl : w.label = n.label := by rw [← hw]
      have hnd : lexLt n.label d = true := scan_below _ _ _ hs
      rcases hcase with hPi | ⟨o, ho, rfl⟩
      · have hid := hpn rfl i hPi
        rw [hwl]
        cases hc : lexLt (ker i) n.label
        · rfl
        · exact absurd (lexLt_trans _ _ _ hc hnd) (by simp [hid])
      · rw [hwl]
        exact scan_batch_min ker gws hker heven start d n hs o ho
  | some cur =>
    simp only at hw
    cases hs : scan_for_vrf_nonce (labelsBuffer ker gws start) cur.label with
    | none =>
      rw [hs] at hw
      simp at hw
      rw [← hw]
      rcases hcase with hPi | ⟨o, ho, rfl⟩
      · exact hp cur rfl i hPi
      · exact scan_batch_none ker gws hker heven start cur.label hs o ho
    | some n =>
      rw [hs] at hw
      simp at hw
      have hwl : w.label = n.label := by rw [← hw]
      have hnc : lexLt n.label cur.label = true := scan_below _ _ _ hs
      rcases hcase with hPi | ⟨o, ho, rfl⟩
      · have hic := hp cur rfl i hPi
        rw [hwl]
        cases hc : lexLt (ker i) n.label
        · rfl
        · exact absurd (lexLt_trans _ _ _ hc hnc) (by simp [hic])
      · rw [hwl]
        exact scan_batch_min ker gws hker heven start cur.label n hs o ho

theorem scryptLoop_min (ker : Nat → List Nat) (gws : Nat) (d : List Nat)
    (hker : ∀ i, (ker i).length = 32) (heven : gws % 2 = 0) :
    ∀ (fuel start : Nat) (outRem : List Nat) (vrf : Option VrfNonce) (P : Nat → Prop),
    (∀ v, vrf = some v → ∀ i, P i → lexLt (ker i) v.label = false) →
    (vrf = none → ∀ i, P i → lexLt (ker i) d = false) →
    ∀ v', (scryptLoop ker gws (some d) fuel start outRem vrf).1 = some v' →
      ∀ i, (P i ∨ i ∈ scannedIndices gws fuel start outRem.length) →
        lexLt (ker i) v'.label = false := by
  intro fuel
  induction fuel with
  | zero =>
    intro start outRem vrf P hp hpn v' h i hi
    rcases hi with hPi | hmem
    · exact hp v' h i hPi
    · simp [scannedIndices] at hmem
  | succ f ih =>
    intro start outRem vrf P hp hpn v' h i hi
    by_cases hemp : outRem.isEmpty
    · have hrem : outRem.length = 0 := by
        rw [List.isEmpty_iff] at hemp
        simp [hemp]
      simp only [scryptLoop] at h
      rw [if_pos hemp] at h
      rcases hi with hPi | hmem
      · exact hp v' h i hPi
      · simp [scannedIndices, hrem] at hmem
    · have hrem : outRem.length ≠ 0 := by
        intro hc
        rw [List.isEmpty_iff] at hemp
        exact hemp (List.length_eq_zero.mp hc)
      simp only [scryptLoop] at h
      rw [if_neg hemp] at h
      have h' : (scryptLoop ker gws (some d) f (start + gws)
          (outRem.drop (min outRem.length (gws * 16)))
          (updateVrf (some d) vrf (labelsBuffer ker gws start) start)).1 = some v' := h
      have hmem2 : (P i ∨ ∃ o, o < gws / 2 ∧ i = start + o) ∨
          i ∈ scannedIndices gws f (start + gws)
            (outRem.drop (min outRem.length (gws * 16))).length := by
        rcases hi with hPi | hmem
        · exact Or.inl (Or.inl hPi)
        · simp only [scannedIndices] at hmem
          rw [if_neg hrem] at hmem
          rcases List.mem_append.mp hmem with hbatch | hrest
          · left; right
            simp only [List.mem_map, List.mem_range] at hbatch
            obtain ⟨o, ho, rfl⟩ := hbatch
            exact ⟨o, by omega, rfl⟩
          · right
            rw [List.length_drop]
            exact hrest
      exact ih (start + gws) _ _ _
        (updateVrf_min_step ker gws d hker heven start vrf P hp hpn)
        (fun hnone => by
          obtain ⟨hvn, hscan⟩ := updateVrf_none_cases d vrf _ start hnone
          intro j hj
          rcases hj with hPj | ⟨o, ho, rfl⟩
          · exact hpn hvn j hPj
          · exact scan_batch_none ker gws hker heven start d
              (by rw [← hvn] at hscan ⊢; exact hscan) o ho)
        v' h' i hmem2

theorem scryptLoop_none_iff (ker : Nat → List Nat) (gws : Nat) (d : List Nat)
    (hker : ∀ i, (ker i).length = 32) (heven : gws % 2 = 0) :
    ∀ (fuel start : Nat) (outRem : List Nat),
    ((scryptLoop ker gws (some d) fuel start outRem none).1 = none ↔
      ∀ i ∈ scannedIndices gws fuel start outRem.length, lexLt (ker i) d = false) := by
  intro fuel
  induction fuel with
  | zero =>
    intro start outRem
    constructor
    · intro _ i hi
      simp [scannedIndices] at hi
    · intro _
      rfl
  | succ f ih =>
    intro start outRem
    by_cases hemp : outRem.isEmpty
    · have hrem : outRem.length = 0 := by
        rw [List.isEmpty_iff] at hemp
        simp [hemp]
      constructor
      · intro _ i hi
        simp [scannedIndices, hrem] at hi
      · intro _
        simp only [scryptLoop]
        rw [if_pos hemp]
    · have hrem : outRem.length ≠ 0 := by
        intro hc
        rw [List.isEmpty_iff] at hemp
        exact hemp (List.length_eq_zero.mp hc)
      constructor
      · intro h i hi
        simp only [scryptLoop] at h
        rw [if_neg hemp] at h
        have h' : (scryptLoop ker gws (some d) f (start + gws)
            (outRem.drop (min outRem.length (gws * 16)))
            (updateVrf (some d) none (labelsBuffer ker gws start) start)).1 = none := h
        have hup : updateVrf (some d) none (labelsBuffer ker gws start) start = none := by
          cases hu : updateVrf (some d) none (labelsBuffer ker gws start) start with
          | none => rfl
          | some w =>
            obtain ⟨v', hv', _⟩ := scryptLoop_mono ker gws d f (start + gws)
              (outRem.drop (min outRem.length (gws * 16))) w
            rw [hu] at h'
            rw [h'] at hv'
            exact absurd hv' (by simp)
        obtain ⟨_, hscan⟩ := updateVrf_none_cases d none _ start hup
        rw [hup] at h'
        simp only [scannedIndices] at hi
        rw [if_neg hrem] at hi
        rcases List.mem_append.mp hi with hbatch | hrest
        · simp only [List.mem_map, List.mem_range] at hbatch
          obtain ⟨o, ho, rfl⟩ := hbatch
          exact scan_batch_none ker gws hker heven start d hscan o (by omega)
        · refine (ih (start + gws) (outRem.drop (min outRem.length (gws * 16)))).mp h' i ?_
          rw [List.length_drop]
          exact hrest
      · intro hall
        simp only [scryptLoop]
        rw [if_neg hemp]
        have hscan : scan_for_vrf_nonce (labelsBuffer ker gws start) d = none := by
          cases hs : scan_for_vrf_nonce (labelsBuffer ker gws start) d with
          | none => rfl
          | some n =>
            obtain ⟨hidx, hlab⟩ := scan_pick_batch ker gws hker heven start d n hs
            have hbelow : lexLt n.label d = true := scan_below _ _ _ hs
            have hmem : start + n.index ∈ scannedIndices gws (f + 1) start outRem.length := by
              simp only [scannedIndices]
              rw [if_neg hrem]
              refine List.mem_append.mpr (Or.inl ?_)
              simp only [List.mem_map, List.mem_range]
              exact ⟨n.index, by omega, rfl⟩
            have := hall _ hmem
            rw [hlab] at this
            rw [this] at hbelow
            exact (Bool.false_ne_true hbelow).elim
        have hup : updateVrf (some d) none (labelsBuffer ker gws start) start = none := by
          unfold updateVrf
          simp only
          rw [hscan]
        show (scryptLoop ker gws (some d) f (start + gws)
          (outRem.drop (min outRem.length (gws * 16)))
          (updateVrf (some d) none (labelsBuffer ker gws start) start)).1 = none
        rw [hup]
        refine (ih (start + gws) _).mpr ?_
        intro i hi
        refine hall i ?_
        simp only [scannedIndices]
        rw [if_neg hrem]
        refine List.mem_append.mpr (Or.inr ?_)
        rw [List.length_drop] at hi
        exact hi

theorem scryptLoop_located (ker : Nat → List Nat) (gws : Nat) (d : List Nat)
    (hker : ∀ i, (ker i).length = 32) (heven : gws % 2 = 0) (hpos : 0 < gws)
    (start0 : Nat) :
    ∀ (fuel k : Nat) (outRem : List Nat) (vrf : Option VrfNonce),
    (∀ v, vrf = some v → start0 ≤ v.index ∧ (v.index - start0) % gws < gws / 2 ∧
        ker v.index = v.label) →
    ∀ v', (scryptLoop ker gws (some d) fuel (start0 + gws * k) outRem vrf).1 = some v' →
      start0 ≤ v'.index ∧ (v'.index - start0) % gws < gws / 2 ∧
        ker v'.index = v'.label := by
  intro fuel
  induction fuel with
  | zero =>
    intro k outRem vrf hi v' h
    exact hi v' h
  | succ f ih =>
    intro k outRem vrf hi v' h
    simp only [scryptLoop] at h
    by_cases hemp : outRem.isEmpty
    · rw [if_pos hemp] at h
      exact hi v' h
    · rw [if_neg hemp] at h
      have h' : (scryptLoop ker gws (some d) f (start0 + gws * k + gws)
          (outRem.drop (min outRem.length (gws * 16)))
          (updateVrf (some d) vrf (labelsBuffer ker gws (start0 + gws * k))
            (start0 + gws * k))).1 = some v' := h
      have hstep : start0 + gws * k + gws = start0 + gws * (k + 1) := by ring
      rw [hstep] at h'
      refine ih (k + 1) _ _ ?_ v' h'
      intro w hw
      unfold updateVrf at hw
      cases vrf with
      | none =>
        simp only at hw
        cases hs : scan_for_vrf_nonce (labelsBuffer ker gws (start0 + gws * k)) d with
        | none => rw [hs] at hw; exact absurd hw (by simp)
        | some n =>
          rw [hs] at hw
          simp at hw
          obtain ⟨hidx, hlab⟩ := scan_pick_batch ker gws hker heven _ d n hs
          rw [← hw]
          refine ⟨by simp; omega, ?_, ?_⟩
          · simp only
            rw [show n.index + (start0 + gws * k) - start0 = gws * k + n.index by omega,
              Nat.mul_add_mod]
            rw [Nat.mod_eq_of_lt (by omega)]
            exact hidx
          · simp only
            rw [show n.index + (start0 + gws * k) = start0 + gws * k + n.index by omega]
            exact hlab
      | some cur =>
        simp only at hw
        cases hs : scan_for_vrf_nonce (labelsBuffer ker gws (start0 + gws * k))
            cur.label with
        | none =>
          rw [hs] at hw
          simp at hw
          rw [← hw]
          exact hi cur rfl
        | some n =>
          rw [hs] at hw
          simp at hw
          obtain ⟨hidx, hlab⟩ := scan_pick_batch ker gws hker heven _ cur.label n hs
          rw [← hw]
          refine ⟨by simp; omega, ?_, ?_⟩
          · simp only
            rw [show n.index + (start0 + gws * k) - start0 = gws * k + n.index by omega,
              Nat.mul_add_mod]
            rw [Nat.mod_eq_of_lt (by omega)]
            exact hidx
          · simp only
            rw [show n.index + (start0 + gws * k) = start0 + gws * k + n.index by omega]
            exact hlab

theorem append_drop_take (l1 l2 : List Nat) (n m : Nat) (h : n + m ≤ l1.length) :
    ((l1 ++ l2).drop n).take m = (l1.drop n).take m := by
  rw [List.drop_append_eq_append_drop]
  rw [List.take_append_eq_append_take]
  have h0 : m - (l1.drop n).length = 0 := by
    rw [List.length_drop]
    omega
  rw [h0, List.take_zero, List.append_nil]

theorem append_drop_past (l1 l2 : List Nat) (n : Nat) (h : l1.length ≤ n) :
    (l1 ++ l2).drop n = l2.drop (n - l1.length) := by
  rw [List.drop_append_eq_append_drop, List.drop_eq_nil_of_le h, List.nil_append]

theorem append_take (l1 l2 : List Nat) (n : Nat) (h : n ≤ l1.length) :
    (l1 ++ l2).take n = l1.take n := by
  rw [List.take_append_eq_append_take, Nat.sub_eq_zero_of_le h, List.take_zero,
    List.append_nil]

theorem labelsBuffer_label (ker : Nat → List Nat) (gws start j : Nat)
    (hker : ∀ i, (ker i).length = 32) (hj2 : j < gws / 2) :
    ((labelsBuffer ker gws start).drop (32 * j)).take 16 = (ker (start + j)).take 16 := by
  unfold labelsBuffer
  have huni : ∀ b ∈ (List.range gws).map (fun i => ker (start + i)), b.length = 32 := by
    intro b hb
    simp only [List.mem_map, List.mem_range] at hb
    obtain ⟨i, _, rfl⟩ := hb
    exact hker _
  have hjg : j < gws := by omega
  rw [List.drop_take, List.take_take]
  have hmin : min 16 (gws * 16 - 32 * j) = 16 := by omega
  rw [hmin, flatten_drop_uniform _ 32 j huni]
  rw [List.drop_eq_getElem_cons (by simp; omega)]
  simp only [List.flatten_cons, List.getElem_map, List.getElem_range]
  exact append_take _ _ 16 (by rw [hker]; omega)

theorem scryptLoop_out (ker : Nat → List Nat) (gws : Nat) (vd : Option (List Nat))
    (hker : ∀ i, (ker i).length = 32) (hpos : 0 < gws) :
    ∀ (fuel start : Nat) (outRem : List Nat) (vrf : Option VrfNonce) (L j : Nat),
    outRem.length = 16 * L → L ≤ fuel → j < L → j % gws < gws / 2 →
    (((scryptLoop ker gws vd fuel start outRem vrf).2).drop (16 * j)).take 16 =
      (ker (start + j)).take 16 := by
  intro fuel
  induction fuel with
  | zero =>
    intro start outRem vrf L j hlen hfuel hj hmod
    omega
  | succ f ih =>
    intro start outRem vrf L j hlen hfuel hj hmod
    have hL : 0 < L := by omega
    have hne : ¬ outRem.isEmpty = true := by
      rw [List.isEmpty_iff]
      intro hc
      rw [hc] at hlen
      simp at hlen
      omega
    simp only [scryptLoop]
    rw [if_neg hne]
    show (((writeChunk (labelsBuffer ker gws start)
        (outRem.take (min outRem.length (gws * 16))) ++
        (scryptLoop ker gws vd f (start + gws)
          (outRem.drop (min outRem.length (gws * 16)))
          (updateVrf vd vrf (labelsBuffer ker gws start) start)).2)).drop (16 * j)).take 16 =
      (ker (start + j)).take 16
    have hbuflen : (labelsBuffer ker gws start).length = gws * 16 :=
      labelsBuffer_length ker gws start hker
    have hchunklen : (outRem.take (min outRem.length (gws * 16))).length =
        16 * min L gws := by
      rw [List.length_take]
      omega
    have hwclen : (writeChunk (labelsBuffer ker gws start)
        (outRem.take (min outRem.length (gws * 16)))).length = 16 * min L gws := by
      rw [writeChunk_length]
      exact hchunklen
    by_cases hcase : j < min L gws
    · have hjg : j < gws := by omega
      have hjh : j < gws / 2 := by
        rw [Nat.mod_eq_of_lt hjg] at hmod
        exact hmod
      rw [append_drop_take _ _ _ _ (by omega)]
      unfold writeChunk
      have hnw : min ((labelsBuffer ker gws start).length / 32)
          ((outRem.take (min outRem.length (gws * 16))).length / 16) =
          min (gws / 2) (min L gws) := by
        rw [hbuflen, hchunklen]
        omega
      rw [hnw]
      have hblocks : ∀ b ∈ (List.range (min (gws / 2) (min L gws))).map
          (fun i => ((labelsBuffer ker gws start).drop (32 * i)).take 16),
          b.length = 16 := by
        intro b hb
        simp only [List.mem_map, List.mem_range] at hb
        obtain ⟨i, hi, rfl⟩ := hb
        rw [List.length_take, List.length_drop, hbuflen]
        omega
      have hflen : (((List.range (min (gws / 2) (min L gws))).map
          (fun i => ((labelsBuffer ker gws start).drop (32 * i)).take 16)).flatten).length =
          16 * min (gws / 2) (min L gws) := by
        rw [flatten_length_uniform _ 16 hblocks]
        simp
      rw [append_drop_take _ _ _ _ (by rw [hflen]; omega)]
      have hget : ((List.range (min (gws / 2) (min L gws))).map
          (fun i => ((labelsBuffer ker gws start).drop (32 * i)).take 16))[j]? =
          some (((labelsBuffer ker gws start).drop (32 * j)).take 16) := by
        have hjlt : j < min (gws / 2) (min L gws) := by omega
        simp [List.getElem?_map, List.getElem?_range, hjlt]
      rw [flatten_block_uniform _ 16 j _ hblocks hget]
      exact labelsBuffer_label ker gws start j hker hjh
    · have hmin : min L gws = gws := by omega
      have hjge : gws ≤ j := by omega
      rw [append_drop_past _ _ _ (by rw [hwclen]; omega)]
      rw [hwclen, hmin, show 16 * j - 16 * gws = 16 * (j - gws) by omega]
      have hrec := ih (start + gws) (outRem.drop (min outRem.length (gws * 16)))
        (updateVrf vd vrf (labelsBuffer ker gws start) start) (L - gws) (j - gws)
        (by rw [List.length_drop]; omega) (by omega) (by omega)
        (by rw [← Nat.mod_eq_sub_mod hjge]; exact hmod)
      rw [show start + gws + (j - gws) = start + j by omega] at hrec
      exact hrec

/-- `Scrypter::scrypt` with valid inputs runs the batch loop and returns its
results. -/
theorem scrypt_checked (ker : Nat → List Nat) (usizeMax : Nat) (s : ScrypterS)
    (labelsStart labelsEnd : Nat) (out : List Nat)
    (hmax : labelsEnd - labelsStart ≤ usizeMax)
    (hlen : out.length = (labelsEnd - labelsStart) * 16) :
    scrypt ker usizeMax s labelsStart labelsEnd out =
      ({ s with vrfNonce := (scryptLoop ker s.globalWorkSize s.vrfDifficulty
          out.length labelsStart out s.vrfNonce).1 },
        (scryptLoop ker s.globalWorkSize s.vrfDifficulty
          out.length labelsStart out s.vrfNonce).2,
        .ok (scryptLoop ker s.globalWorkSize s.vrfDifficulty
          out.length labelsStart out s.vrfNonce).1) := by
  unfold scrypt
  split
  · next e heq =>
    unfold buffer_len at heq
    rw [if_pos hmax] at heq
    exact absurd heq (by simp)
  · next expected heq =>
    unfold buffer_len at heq
    rw [if_pos hmax] at heq
    injection heq with heq
    rw [if_neg (show ¬ out.length ≠ expected from fun hc => hc (by omega))]

/-- Claim C5: folding `scan_for_vrf_nonce` across the batches of one
`Scrypter::scrypt` call (difficulty `d` configured, no nonce stored yet):
a `Some` result holds a label strictly below `d` with no scanned label
strictly smaller than it; the stored minimum is only ever replaced by a
strictly smaller label; and the result is `None` exactly when no scanned
label is strictly below `d`. -/
theorem scrypt_vrf_fold_minimality (ker : Nat → List Nat) (gws : Nat) (d : List Nat)
    (usizeMax labelsStart labelsEnd : Nat) (out : List Nat)
    (hker : ∀ i, (ker i).length = 32) (heven : gws % 2 = 0)
    (hmax : labelsEnd - labelsStart ≤ usizeMax)
    (hlen : out.length = (labelsEnd - labelsStart) * 16) :
    (∀ v, (scrypt ker usizeMax ⟨gws, some d, none⟩ labelsStart labelsEnd out).2.2 =
        .ok (some v) →
      lexLt v.label d = true ∧
        ∀ i ∈ scannedIndices gws out.length labelsStart out.length,
          lexLt (ker i) v.label = false) ∧
    ((scrypt ker usizeMax ⟨gws, some d, none⟩ labelsStart labelsEnd out).2.2 =
        .ok none ↔
      ∀ i ∈ scannedIndices gws out.length labelsStart out.length,
        lexLt (ker i) d = false) ∧
    (∀ (cur : VrfNonce) (buf : List Nat) (st : Nat) (v' : VrfNonce),
      updateVrf (some d) (some cur) buf st = some v' →
        v' = cur ∨ lexLt v'.label cur.label = true) := by
  have hc := scrypt_checked ker usizeMax ⟨gws, some d, none⟩ labelsStart labelsEnd out
    hmax hlen
  have hred : (scrypt ker usizeMax ⟨gws, some d, none⟩ labelsStart labelsEnd out).2.2 =
      .ok (scryptLoop ker gws (some d) out.length labelsStart out none).1 := by
    rw [hc]
  refine ⟨?_, ?_, ?_⟩
  · intro v h
    rw [hred] at h
    have hloop : (scryptLoop ker gws (some d) out.length labelsStart out none).1 =
        some v := by
      injection h
    constructor
    · exact scryptLoop_good ker gws d out.length labelsStart out none
        (fun w hw => absurd hw (by simp)) v hloop
    · intro i hi
      exact scryptLoop_min ker gws d hker heven out.length labelsStart out none
        (fun _ => False) (fun w hw => absurd hw (by simp)) (fun _ _ hF => hF.elim)
        v hloop i (Or.inr hi)
  · rw [hred]
    constructor
    · intro h
      have hloop : (scryptLoop ker gws (some d) out.length labelsStart out none).1 =
          none := by
        injection h
      exact (scryptLoop_none_iff ker gws d hker heven out.length labelsStart out).mp hloop
    · intro hall
      rw [(scryptLoop_none_iff ker gws d hker heven out.length labelsStart out).mpr hall]
  · intro cur buf st v' h
    exact updateVrf_mono d cur buf st v' h

/-- Witness for C5 at a constant all-zero kernel, `gws = 2`, difficulty `[1]`,
two labels: the fold returns the nonce at index 0, and both conclusions of
the first conjunct hold there. -/
theorem scrypt_vrf_fold_minimality_witness :
    lexLt (VrfNonce.mk 0 (List.replicate 32 0)).label [1] = true ∧
      ∀ i ∈ scannedIndices 2 32 0 32,
        lexLt ((fun _ => List.replicate 32 0) i)
          (VrfNonce.mk 0 (List.replicate 32 0)).label = false :=
  (scrypt_vrf_fold_minimality (fun _ => List.replicate 32 0) 2 [1] 100 0 2
      (List.replicate 32 0) (fun _ => by simp) (by decide) (by decide) (by simp)).1
    ⟨0, List.replicate 32 0⟩ rfl

/-- Claim C6 (amended): when `Scrypter::scrypt` with a configured difficulty
and no previously stored nonce returns `Some(VrfNonce{index, label})`, the
label is strictly below the difficulty, `index ≥ labels.start` with batch
offset `(index - labels.start) % gws < gws / 2` (the index can exceed
`labels.end`, because every batch scans `gws/2` labels even past the
requested range), `label` is the kernel output at `index`, and whenever
`index < labels.end` the first 16 bytes of the label equal the 16 persisted
bytes `out[16·(index - labels.start) ..]`. -/
theorem scrypt_vrf_nonce_spec (ker : Nat → List Nat) (gws : Nat) (d : List Nat)
    (usizeMax labelsStart labelsEnd : Nat) (out : List Nat)
    (hker : ∀ i, (ker i).length = 32) (heven : gws % 2 = 0) (hpos : 0 < gws)
    (hmax : labelsEnd - labelsStart ≤ usizeMax)
    (hlen : out.length = (labelsEnd - labelsStart) * 16) :
    ∀ sF outF v, scrypt ker usizeMax ⟨gws, some d, none⟩ labelsStart labelsEnd out =
        (sF, outF, .ok (some v)) →
      lexLt v.label d = true ∧ labelsStart ≤ v.index ∧
        (v.index - labelsStart) % gws < gws / 2 ∧ ker v.index = v.label ∧
        (v.index < labelsEnd →
          (outF.drop (16 * (v.index - labelsStart))).take 16 = v.label.take 16) := by
  have hc := scrypt_checked ker usizeMax ⟨gws, some d, none⟩ labelsStart labelsEnd out
    hmax hlen
  intro sF outF v h
  rw [hc] at h
  have h2 : ((⟨gws, some d,
        (scryptLoop ker gws (some d) out.length labelsStart out none).1⟩ : ScrypterS),
      (scryptLoop ker gws (some d) out.length labelsStart out none).2,
      (Except.ok (scryptLoop ker gws (some d) out.length labelsStart out none).1 :
        Except ScryptError (Option VrfNonce))) = (sF, outF, .ok (some v)) := h
  rw [Prod.mk.injEq, Prod.mk.injEq] at h2
  obtain ⟨hstate, houtF, hres⟩ := h2
  have hloop : (scryptLoop ker gws (some d) out.length labelsStart out none).1 =
      some v := by
    injection hres
  have hgood := scryptLoop_good ker gws d out.length labelsStart out none
    (fun w hw => absurd hw (by simp)) v hloop
  have hloc := scryptLoop_located ker gws d hker heven hpos labelsStart
    out.length 0 out none (fun w hw => absurd hw (by simp)) v
    (by rw [show labelsStart + gws * 0 = labelsStart from by ring]; exact hloop)
  obtain ⟨hge, hmod, hlab⟩ := hloc
  refine ⟨hgood, hge, hmod, hlab, ?_⟩
  intro hlt
  have hout := scryptLoop_out ker gws (some d) hker hpos out.length labelsStart out none
    (labelsEnd - labelsStart) (v.index - labelsStart)
    (by omega) (by omega) (by omega) hmod
  rw [show labelsStart + (v.index - labelsStart) = v.index from by omega] at hout
  rw [← houtF, hout, hlab]

/-- Witness for the amended C6: all-zero kernel, `gws = 2`, difficulty `[1]`,
range `0..2`: the nonce at index 0 satisfies all four conclusions, and its
first 16 bytes are the persisted ones. -/
theorem scrypt_vrf_nonce_spec_witness :
    lexLt (VrfNonce.mk 0 (List.replicate 32 0)).label [1] = true ∧
      0 ≤ (VrfNonce.mk 0 (List.replicate 32 0)).index ∧
      ((VrfNonce.mk 0 (List.replicate 32 0)).index - 0) % 2 < 2 / 2 ∧
      (fun _ => List.replicate 32 0) (VrfNonce.mk 0 (List.replicate 32 0)).index =
        (VrfNonce.mk 0 (List.replicate 32 0)).label ∧
      ((VrfNonce.mk 0 (List.replicate 32 0)).index < 2 →
        (((List.replicate 16 0 ++ List.replicate 16 7) :
            List Nat).drop (16 * ((VrfNonce.mk 0 (List.replicate 32 0)).index - 0))).take 16 =
          (VrfNonce.mk 0 (List.replicate 32 0)).label.take 16) :=
  scrypt_vrf_nonce_spec (fun _ => List.replicate 32 0) 2 [1] 100 0 2
    (List.replicate 32 7) (fun _ => by simp) (by decide) (by decide) (by decide) (by simp)
    ⟨2, some [1], some ⟨0, List.replicate 32 0⟩⟩
    (List.replicate 16 0 ++ List.replicate 16 7) ⟨0, List.replicate 32 0⟩ rfl

set_option maxRecDepth 100000 in
/-- Counterexample to claim C6 as stated: with `gws = 64` the single batch
for the range `0..10` scans 32 labels, and the VRF nonce is found at index
15, outside the initialized label range `[0, 10)`. -/
theorem scrypt_vrf_nonce_range_counterexample :
    (scrypt kerCex (2 ^ 64 - 1) ⟨64, some dCex, none⟩ 0 10
        (List.replicate 160 0)).2.2 = .ok (some ⟨15, List.replicate 32 0⟩) ∧
      ¬ (15 < 10) := ⟨rfl, by decide⟩

theorem strictAscending_of_pairwise : ∀ l : List Nat,
    l.Pairwise (· < ·) → strictAscending l = true := by
  intro l
  induction l with
  | nil => intro _; rfl
  | cons a t ih =>
    intro h
    cases t with
    | nil => rfl
    | cons b t2 =>
      rw [List.pairwise_cons] at h
      obtain ⟨hab, htail⟩ := h
      simp only [strictAscending, Bool.and_eq_true]
      exact ⟨by simp [hab b (List.mem_cons_self b t2)], ih htail⟩

/-- Claim C1 (spec-modelled): for every oracle instantiation and parameter
choice — in particular the §8.3 parameters — a proof produced by
`generate_proof` is accepted by `verify_proof`; and the same proof with its
`pow` field decremented by 1 (with u64 wrap-around) is rejected whenever the
RandomX hash at the decremented pow is not strictly below the pow
difficulty, which is what the reference test observes. -/
theorem generate_then_verify (v : Nat → Nat → Nat) (rx : List Nat → List Nat)
    (scrypt8 : List Nat → List Nat → List Nat) (pack : List Nat → List Nat)
    (cfg : ProofCfg) (challenge : List Nat) (total nonces : Nat) (proof : ProofS)
    (h : generate_proof v rx scrypt8 pack cfg challenge total nonces = some proof) :
    verify_proof v rx scrypt8 pack cfg challenge total proof = true ∧
    (lexLt (rx (powInput ((proof.pow + (2 ^ 64 - 1)) % 2 ^ 64) (proof.nonce / 16)
        (challenge.take 8))) cfg.pow_difficulty = false →
      verify_proof v rx scrypt8 pack cfg challenge total
        { proof with pow := (proof.pow + (2 ^ 64 - 1)) % 2 ^ 64 } = false) := by
  unfold generate_proof at h
  split at h
  · exact absurd h (by simp)
  next difficulty hd =>
    split at h
    · exact absurd h (by simp)
    next n hn =>
      split at h
      · exact absurd h (by simp)
      next k2p hk2 =>
        split at h
        · exact absurd h (by simp)
        next k3p hk3 =>
          split at h
          · exact absurd h (by simp)
          next pw hpw =>
            simp only [Option.some.injEq] at h
            subst h
            have hsf := searchFirst_eq_some _ _ _ _ hn
            have hlenge : cfg.k2 ≤ (collectIndices v n difficulty total).length := by
              simpa using hsf.1
            have hlen2 : ((collectIndices v n difficulty total).take cfg.k2).length =
                cfg.k2 := by
              rw [List.length_take]
              omega
            have hasc : strictAscending
                ((collectIndices v n difficulty total).take cfg.k2) = true := by
              refine strictAscending_of_pairwise _ ?_
              refine List.Pairwise.sublist (List.take_sublist _ _) ?_
              exact (List.pairwise_lt_range total).filter _
            have hmemlt : ∀ i ∈ (collectIndices v n difficulty total).take cfg.k2,
                i < total := by
              intro i hi
              have h1 := List.mem_of_mem_take hi
              unfold collectIndices at h1
              have h2 := List.mem_of_mem_filter h1
              simpa using h2
            have hmemv : ∀ i ∈ (collectIndices v n difficulty total).take cfg.k2,
                v n i < difficulty := by
              intro i hi
              have h1 := List.mem_of_mem_take hi
              unfold collectIndices at h1
              have h2 := List.of_mem_filter h1
              simpa using h2
            have hk2u := hk2
            unfold find_k2_pow at hk2u
            have hk2hash : hash_k2_pow scrypt8 challenge n k2p <
                cfg.k2_pow_difficulty := by
              simpa using (searchFirst_eq_some _ _ _ _ hk2u).1
            have hk3u := hk3
            unfold find_k3_pow at hk3u
            have hk3hash : hash_k3_pow scrypt8 challenge n
                (pack ((collectIndices v n difficulty total).take cfg.k2)) k2p k3p <
                cfg.k3_pow_difficulty := by
              simpa using (searchFirst_eq_some _ _ _ _ hk3u).1
            have hlex : lexLt (rx (powInput pw (n / 16) (challenge.take 8)))
                cfg.pow_difficulty = true := by
              unfold PoW_prove at hpw
              cases hsp : searchFirst
                  (fun m => lexLt (rx (powInput m (n / 16) (challenge.take 8)))
                    cfg.pow_difficulty) (2 ^ 56) 0 with
              | none => rw [hsp] at hpw; exact absurd hpw (by simp)
              | some m =>
                rw [hsp] at hpw
                simp only [Except.ok.injEq] at hpw
                subst hpw
                exact (searchFirst_eq_some _ _ _ _ hsp).1
            constructor
            · unfold verify_proof
              rw [hd]
              simp [hk2, hk3, hlen2, hasc, hk2hash, hk3hash, hlex,
                List.all_eq_true]
              exact ⟨hmemlt, hmemv⟩
            · intro hmut
              unfold verify_proof
              rw [hd]
              simp only at hmut
              simp [hmut]
              intros
              simpa using hmut

/-- Witness for C1 at concrete oracles: 4 labels, `k1 = 2, k2 = 3`, constant
zero nonce values, constant zero scrypt hashes, RandomX hash `[0]` against
difficulty `[1]`; `generate_proof` yields `⟨nonce 0, [0, 1, 2], pow 0⟩` and
the verifier accepts it. -/
theorem generate_then_verify_witness :
    verify_proof (fun _ _ => 0) (fun _ => [0]) (fun _ _ => List.replicate 8 0)
        (fun _ => []) ⟨2, 3, 1, [1], 1, 1⟩ (List.replicate 32 0) 4
        ⟨0, [0, 1, 2], 0⟩ = true :=
  (generate_then_verify (fun _ _ => 0) (fun _ => [0]) (fun _ _ => List.replicate 8 0)
      (fun _ => []) ⟨2, 3, 1, [1], 1, 1⟩ (List.replicate 32 0) 4 16
      ⟨0, [0, 1, 2], 0⟩ rfl).1
